import Mathlib

/-!
Shallow embedding of the PII matching pipeline of `apps/web/app/actions.ts`
(repository redact-that): variant generation (`createSearchVariants`),
exact / flexible / fuzzy matching, bounding-box computation
(`createPiiMatch`) and the orchestrator (`mapPiiToBbox`).

JavaScript numbers are modelled as rationals, the regular expressions of the
source are modelled by explicit character-class functions, and the per-phrase
claimed-position `Set` is modelled by a list used only through membership.
-/

namespace RedactThat

/-- Models the character class `[a-zA-Z0-9]` used by every
`replace(/[^a-zA-Z0-9]/g, "")` in the source. -/
def isAlnumChar (c : Char) : Bool :=
  (('a' ≤ c) && (c ≤ 'z')) || (('A' ≤ c) && (c ≤ 'Z')) || (('0' ≤ c) && (c ≤ '9'))

/-- Models `word.replace(/[^a-zA-Z0-9]/g, "")`: keep only ASCII letters and digits. -/
def normalizeToken (s : String) : String :=
  String.mk (s.toList.filter isAlnumChar)

/-- Models `text.replace(/[^a-zA-Z0-9]/g, "").toLowerCase()` (used by the fuzzy matcher). -/
def lowerNorm (s : String) : String :=
  String.mk ((s.toList.filter isAlnumChar).map Char.toLower)

/-- ASCII whitespace, modelling the `\s` class for the inputs in scope. -/
def isWsChar (c : Char) : Bool :=
  c = ' ' || c = '\t' || c = '\n' || c = '\r'

/-- Accumulator pass behind `splitWs`: collect maximal runs of
non-whitespace characters (`cur` holds the current run reversed). -/
def splitWsAux : List Char → List Char → List String
  | [], cur => if cur.isEmpty then [] else [String.mk cur.reverse]
  | c :: rest, cur =>
    if isWsChar c then
      if cur.isEmpty then splitWsAux rest []
      else String.mk cur.reverse :: splitWsAux rest []
    else splitWsAux rest (c :: cur)

/-- Models `s.trim().split(/\s+/)`: the maximal non-whitespace runs of `s`;
on an all-whitespace input JavaScript yields `[""]`. -/
def splitWs (s : String) : List String :=
  let runs := splitWsAux s.toList []
  if runs.isEmpty then [""] else runs

/-- The separator characters replaced by spaces in the hyphen-expansion
variant: the hyphen replacement followed by `replace(/[,_.]/g, " ")`. -/
def isSepChar (c : Char) : Bool :=
  c = '-' || c = ',' || c = '_' || c = '.'

/-- Models the two separator-to-space replacements applied to the raw text. -/
def replaceSeps (s : String) : String :=
  String.mk (s.toList.map (fun c => if isSepChar c then ' ' else c))

def isDigitChar (c : Char) : Bool := ('0' ≤ c) && (c ≤ '9')

def isLetterChar (c : Char) : Bool :=
  (('a' ≤ c) && (c ≤ 'z')) || (('A' ≤ c) && (c ≤ 'Z'))

/-- The letter/digit boundary test of the source:
`(char1.match(/[A-Z]/i) && char2.match(/\d/)) || (char1.match(/\d/) && char2.match(/[A-Z]/i))`. -/
def isBoundaryPair (c1 c2 : Char) : Bool :=
  (isLetterChar c1 && isDigitChar c2) || (isDigitChar c1 && isLetterChar c2)

/-- Accumulator pass behind `spacedSplit` (`cur` holds the current run reversed). -/
def spacedSplitAux : List Char → List Char → List String
  | [], cur => if cur.isEmpty then [] else [String.mk cur.reverse]
  | c :: rest, cur =>
    match cur with
    | [] => spacedSplitAux rest [c]
    | p :: _ =>
      if isBoundaryPair p c then String.mk cur.reverse :: spacedSplitAux rest [c]
      else spacedSplitAux rest (c :: cur)

/-- Models, for an already-normalized (alphanumeric) token, the variant-3 step
`replace(/([A-Za-z])(\d)/g, "$1 $2").replace(/(\d)([A-Za-z])/g, "$1 $2").split(/\s+/).map(normalize)`:
the token broken exactly at every letter/digit boundary. -/
def spacedSplit (s : String) : List String :=
  spacedSplitAux s.toList []

/-- Models `word.slice(a, b)` on the character list of a token. -/
def sliceStr (w : List Char) (a b : Nat) : String :=
  String.mk ((w.drop a).take (b - a))

/-- Models the inner `j` loop of variant 5: scan `j` from `i + 2` upward for the
first letter/digit boundary and emit the 3-way split there (the source breaks
after the first hit). -/
def threeWaySplitsAt (w : List Char) (i : Nat) : List (List String) :=
  match (List.range' (i + 2) (w.length - (i + 2))).find?
      (fun j => isBoundaryPair (w.getD (j - 1) ' ') (w.getD j ' ')) with
  | some j => [[sliceStr w 0 i, sliceStr w i j, String.mk (w.drop j)]]
  | none => []

/-- Models the variant-5 split enumeration: for `i` from `1` to `length - 1`,
a 2-way split at every letter/digit boundary, plus (for tokens of length at
least 6 and `2 ≤ i ≤ length - 2`) one 3-way split found by the forward scan. -/
def possibleSplits (w : List Char) : List (List String) :=
  (List.range' 1 (w.length - 1)).flatMap (fun i =>
    (if isBoundaryPair (w.getD (i - 1) ' ') (w.getD i ' ') then
      [[sliceStr w 0 i, String.mk (w.drop i)]]
    else []) ++
    (if w.length ≥ 6 ∧ 2 ≤ i ∧ i ≤ w.length - 2 then threeWaySplitsAt w i else []))

/-- Models the duplicate-removal filter
`variants.filter((v, i) => variants.findIndex(eq v) === i)`: keep first occurrences. -/
def dedupVariants (l : List (List String)) : List (List String) :=
  l.foldl (fun acc v => if v ∈ acc then acc else acc ++ [v]) []

/-- Embedding of `createSearchVariants` from `actions.ts`:
base tokens, merged token, letter/digit spaced split, separator expansion,
exhaustive boundary splits, then de-duplication. -/
def createSearchVariants (piiText : String) : List (List String) :=
  let normalizedWords := (splitWs piiText).map normalizeToken
  -- variant 1: original normalized words
  let v1 := [normalizedWords]
  -- variant 2: all as one word
  let v2 := if normalizedWords.length > 1 then [[String.join normalizedWords]] else []
  -- variant 3: spaces between letters and numbers, for a single word
  let v3 :=
    if normalizedWords.length = 1 then
      let spacedVariant := spacedSplit (normalizedWords.headD "")
      if spacedVariant.length > 1 then [spacedVariant] else []
    else []
  -- variant 4: hyphens and other punctuation replaced by spaces
  let expandHyphens :=
    (((splitWs (replaceSeps piiText)).map normalizeToken).filter (fun w => w.length > 0))
  let v4 := if expandHyphens = normalizedWords then [] else [expandHyphens]
  -- variant 5: exhaustive letter/digit boundary splitting
  let v5 :=
    if normalizedWords.length = 1 ∧ (normalizedWords.headD "").length ≥ 4 then
      (possibleSplits (normalizedWords.headD "").toList).filter
        (fun sp => sp.length > 1 ∧ sp.all (fun part => part.length > 0))
    else []
  dedupVariants (v1 ++ v2 ++ v3 ++ v4 ++ v5)

/-- One row update of the Levenshtein dynamic program: given the previous-row
tail, the previous-row value diagonally up-left arrives as the head of `prev`,
and `left` is the value just computed on the current row. -/
def levRowAux (x : Char) : List Char → List Nat → Nat → List Nat
  | [], _, _ => []
  | y :: ys, prev, left =>
    let diag := prev.headD 0
    let up := prev.tail.headD 0
    let v := min (min (left + 1) (up + 1)) (diag + (if x = y then 0 else 1))
    v :: levRowAux x ys prev.tail v

/-- Full dynamic-programming table walk for the edit distance. -/
def levFold (b : List Char) (a : List Char) : List Nat :=
  a.foldl (fun row x => (row.headD 0 + 1) :: levRowAux x b row (row.headD 0 + 1))
    (List.range (b.length + 1))

/-- Standard Levenshtein edit distance (insert, delete, substitute at cost 1),
the function computed by the `fastest-levenshtein` package used by the source. -/
def levenshtein (a b : List Char) : Nat :=
  (levFold b a).getLastD 0

/-- A polygon vertex of the Vision API: both coordinates optional
(`x?: number | null`); JavaScript numbers are modelled as rationals. -/
structure Vertex where
  x : Option ℚ
  y : Option ℚ
deriving DecidableEq, Repr

/-- `BoundingBox`; the inner optional vertex list is flattened since the
source only reads it through `boundingBox?.vertices ?? []`. -/
structure BoundingBox where
  vertices : List Vertex
deriving DecidableEq, Repr

/-- `WordInfo`: one OCR word with its optional bounding box. -/
structure WordInfo where
  text : String
  boundingBox : Option BoundingBox
deriving DecidableEq, Repr

/-- One phrase flagged as sensitive: `{ text, label }`. -/
structure Pii where
  text : String
  label : String
deriving DecidableEq, Repr

/-- The strategy tag of a match. The source builds descriptive strings
(`exact variant: ...`, `flexible match (n words)`, `fuzzy match (p%)`);
this carries the same data structurally. -/
inductive MatchType where
  | exact (variant : List String)
  | flexible (wordCount : Nat)
  | fuzzy (confidence : ℚ)
deriving DecidableEq, Repr

/-- An output record of the pipeline. The extra `positions` field is a ghost
field recording which word indices the matched slice came from; the source
keeps this information implicitly in the slice taken from the word list. -/
structure PiiMatch where
  id : Nat
  label : String
  text : String
  bbox : ℚ × ℚ × ℚ × ℚ
  vertices : List Vertex
  redacted : Bool
  confidence : ℚ
  matchType : MatchType
  positions : List Nat
deriving DecidableEq, Repr

/-- `Math.min` over a nonempty rational list (the empty case never arises in
the source since it is guarded by the emptiness check on the vertices). -/
def minQ : List ℚ → ℚ
  | [] => 0
  | x :: xs => xs.foldl min x

/-- `Math.max` over a nonempty rational list. -/
def maxQ : List ℚ → ℚ
  | [] => 0
  | x :: xs => xs.foldl max x

/-- `Math.min` over a nonempty list of word positions. -/
def minNat : List Nat → Nat
  | [] => 0
  | x :: xs => xs.foldl min x

/-- `Math.max` over a nonempty list of word positions. -/
def maxNat : List Nat → Nat
  | [] => 0
  | x :: xs => xs.foldl max x

/-- `allVertices` of `createPiiMatch`:
`wordSlice.flatMap(w => w.boundingBox?.vertices ?? [])`. -/
def allVerticesOf (wordSlice : List WordInfo) : List Vertex :=
  wordSlice.flatMap (fun w => (w.boundingBox.map BoundingBox.vertices).getD [])

/-- The vertex validity test `typeof v.x === number && typeof v.y === number`. -/
def isValidVertex (v : Vertex) : Bool :=
  v.x.isSome && v.y.isSome

/-- `validVertices` of `createPiiMatch`. -/
def validVerticesOf (wordSlice : List WordInfo) : List Vertex :=
  (allVerticesOf wordSlice).filter isValidVertex

/-- Embedding of `createPiiMatch`: union the vertices of the matched words,
drop vertices without numeric coordinates, fail on an empty remainder, and
otherwise build the record with the envelope box. `positions` is the ghost
list of word indices of `wordSlice` supplied by the caller. -/
def createPiiMatch (wordSlice : List WordInfo) (id : Nat) (pii : Pii)
    (confidence : ℚ) (matchType : MatchType) (positions : List Nat) :
    Option PiiMatch :=
  let validVertices := validVerticesOf wordSlice
  if validVertices.isEmpty then none
  else
    -- `map(v => v.x!)` followed by a null filter that is vacuous on valid vertices
    let xCoords := validVertices.filterMap Vertex.x
    let yCoords := validVertices.filterMap Vertex.y
    let x0 := minQ xCoords
    let y0 := minQ yCoords
    let x1 := maxQ xCoords
    let y1 := maxQ yCoords
    some { id := id, label := pii.label, text := pii.text,
           bbox := (x0, y0, x1 - x0, y1 - y0),
           vertices := validVertices, redacted := true,
           confidence := confidence, matchType := matchType,
           positions := positions }

/-- A candidate of the flexible matcher before record creation. -/
structure FlexMatch where
  words : List WordInfo
  confidence : ℚ
  matchedWords : List String
  positions : List Nat
deriving DecidableEq, Repr

/-- Embedding of the recursive `findCombinations`: all assignments of one
occurrence position per token, skipping positions already used inside the
same combination, in depth-first order. The source tests acceptance at each
complete leaf; here the enumeration is separated from the acceptance filter. -/
def findCombinations : List (List Nat) → List Nat → List (List Nat)
  | [], _ => [[]]
  | ps :: rest, used =>
    ps.flatMap (fun p =>
      if p ∈ used then []
      else (findCombinations rest (p :: used)).map (fun c => p :: c))

/-- The occurrence positions of one target token:
`wordMap.map((word, index) => ...).filter(eq).map(index)`. -/
def occurrencePositions (wordMap : List WordInfo) (targetWord : String) : List Nat :=
  ((List.range wordMap.length).filter
    (fun i => (wordMap.getD i ⟨"", none⟩).text = targetWord))

/-- The span of a combination: `max(position) - min(position) + 1`. -/
def flexSpan (combo : List Nat) : Nat :=
  maxNat combo - minNat combo + 1

/-- The candidate built from one accepted combination: the matched words,
the confidence `max(0.7, 1 - span / 100)`, the variant and the positions. -/
def mkFlexMatch (wordMap : List WordInfo) (variant : List String)
    (combo : List Nat) : FlexMatch :=
  { words := combo.map (fun pos => wordMap.getD pos ⟨"", none⟩),
    confidence := max ((7 : ℚ)/10) (1 - (flexSpan combo : ℚ)/100),
    matchedWords := variant,
    positions := combo }

/-- The accepted combinations of all searched variants, before sorting and
truncation: variants shorter than 3 tokens are skipped, a variant with an
unmatchable token is abandoned, and a complete combination is accepted
exactly when its span is at most 20 and none of its positions is already
claimed for the phrase. -/
def findFlexibleCandidates (searchVariants : List (List String))
    (wordMap : List WordInfo) (foundPositions : List Nat) : List FlexMatch :=
  searchVariants.flatMap (fun variant =>
    if variant.length < 3 then []
    else
      let wordPositions := variant.map (occurrencePositions wordMap)
      if wordPositions.any List.isEmpty then []
      else
        (findCombinations wordPositions []).filterMap (fun combo =>
          if flexSpan combo ≤ 20 ∧ ¬ combo.any (fun pos => pos ∈ foundPositions) then
            some (mkFlexMatch wordMap variant combo)
          else none))

/-- Stable descending insertion used to model the JavaScript stable sort
with comparator `(a, b) => b.confidence - a.confidence`. -/
def insertFlexDesc (m : FlexMatch) : List FlexMatch → List FlexMatch
  | [] => [m]
  | x :: xs =>
    if x.confidence ≤ m.confidence then m :: x :: xs
    else x :: insertFlexDesc m xs

/-- Stable sort of flexible candidates by descending confidence; for the
unique stable descending order this agrees with the JavaScript sort. -/
def sortFlexDesc (l : List FlexMatch) : List FlexMatch :=
  l.foldr insertFlexDesc []

/-- Embedding of `findFlexibleMatches`: candidates of all variants, sorted by
descending confidence, truncated to the top 3. -/
def findFlexibleMatches (searchVariants : List (List String))
    (wordMap : List WordInfo) (foundPositions : List Nat) : List FlexMatch :=
  (sortFlexDesc (findFlexibleCandidates searchVariants wordMap foundPositions)).take 3

/-- A candidate of the fuzzy matcher. -/
structure FuzzyMatch where
  position : Nat
  confidence : ℚ
  matchedWords : Nat
deriving DecidableEq, Repr

/-- The candidate string of one window: the window tokens normalized,
lower-cased and concatenated. -/
def windowCandidate (words : List WordInfo) (i span : Nat) : String :=
  String.join (((words.drop i).take span).map (fun w => lowerNorm w.text))

/-- The similarity score computed by the source for one candidate:
`1 - distance(normalizedPii, candidate) / Math.max(normalizedPii.length, candidate.length)`. -/
def specSimilarity (p c : String) : ℚ :=
  1 - (levenshtein p.toList c.toList : ℚ) / (max (p.length : ℚ) (c.length : ℚ))

/-- The window enumeration of `fuzzyMatchPII`: window lengths 1 to
`min(5, words.length)`, all valid starts, nonempty candidates whose
similarity reaches the threshold (the source let-binds the candidate and
the similarity; they are written through the two helper functions here). -/
def fuzzyCandidates (piiText : String) (words : List WordInfo) (threshold : ℚ) :
    List FuzzyMatch :=
  let normalizedPii := lowerNorm piiText
  (List.range' 1 (min 5 words.length)).flatMap (fun span =>
    (List.range (words.length - span + 1)).filterMap (fun i =>
      if (windowCandidate words i span).length > 0 then
        if threshold ≤ specSimilarity normalizedPii (windowCandidate words i span) then
          some ⟨i, specSimilarity normalizedPii (windowCandidate words i span), span⟩
        else none
      else none))

/-- The overlap test of the fuzzy suppression:
`Math.abs(prev.position - match.position) < Math.max(prev.matchedWords, match.matchedWords)`. -/
def fuzzyOverlaps (prev m : FuzzyMatch) : Bool :=
  Nat.dist prev.position m.position < max prev.matchedWords m.matchedWords

/-- Stable descending insertion for fuzzy candidates. -/
def insertFuzzyDesc (m : FuzzyMatch) : List FuzzyMatch → List FuzzyMatch
  | [] => [m]
  | x :: xs =>
    if x.confidence ≤ m.confidence then m :: x :: xs
    else x :: insertFuzzyDesc m xs

/-- Stable sort of fuzzy candidates by descending confidence. -/
def sortFuzzyDesc (l : List FuzzyMatch) : List FuzzyMatch :=
  l.foldr insertFuzzyDesc []

/-- Embedding of the suppression filter
`filter((match, index, arr) => !arr.slice(0, index).some(overlap))`:
`seen` accumulates every earlier element of the sorted array, whether or not
it was itself kept, exactly as `arr.slice(0, index)` does. -/
def nmsGo : List FuzzyMatch → List FuzzyMatch → List FuzzyMatch
  | _, [] => []
  | seen, m :: rest =>
    if seen.any (fun prev => fuzzyOverlaps prev m) then nmsGo (seen ++ [m]) rest
    else m :: nmsGo (seen ++ [m]) rest

/-- Embedding of `fuzzyMatchPII`: enumerate, sort by descending similarity,
apply the suppression filter. -/
def fuzzyMatchPII (piiText : String) (words : List WordInfo) (threshold : ℚ) :
    List FuzzyMatch :=
  nmsGo [] (sortFuzzyDesc (fuzzyCandidates piiText words threshold))

/-- The mutable state of one phrase iteration inside `mapPiiToBbox`:
the global record accumulator and id counter, plus the per-phrase
claimed-position set (modelled as a list used through membership) and the
per-phrase instance counter. -/
structure PhraseState where
  piiData : List PiiMatch
  piiIdCounter : Nat
  foundPositions : List Nat
  instanceCount : Nat
deriving DecidableEq, Repr

/-- The call-scoped state threaded between phrases. -/
structure PState where
  piiData : List PiiMatch
  piiIdCounter : Nat
deriving DecidableEq, Repr

/-- The exact-matching body at one window start `i` for one variant: skip a
claimed start, compare the normalized window slice with the variant, and on
equality bump the instance count, create the record (the id counter advances
even when the record is dropped), and claim every window position. -/
def exactStepAt (pii : Pii) (wordMap : List WordInfo) (variant : List String)
    (st : PhraseState) (i : Nat) : PhraseState :=
  if i ∈ st.foundPositions then st
  else
    let wordSlice := (wordMap.drop i).take variant.length
    let sliceText := wordSlice.map WordInfo.text
    if sliceText = variant then
      let m := createPiiMatch wordSlice st.piiIdCounter pii 1
        (MatchType.exact variant) (List.range' i variant.length)
      { piiData := match m with
          | some r => st.piiData ++ [r]
          | none => st.piiData,
        piiIdCounter := st.piiIdCounter + 1,
        foundPositions :=
          (List.range' i variant.length).foldl (fun fp j => j :: fp)
            (i :: st.foundPositions),
        instanceCount := st.instanceCount + 1 }
    else st

/-- The exact-matching loop of one variant. The guard models the JavaScript
loop bound `i <= wordMap.length - variant.length`, which is negative (so the
loop body never runs) when the variant is longer than the word list. -/
def exactStep (pii : Pii) (wordMap : List WordInfo) (st : PhraseState)
    (variant : List String) : PhraseState :=
  if variant.length > wordMap.length then st
  else (List.range (wordMap.length - variant.length + 1)).foldl
    (exactStepAt pii wordMap variant) st

/-- The flexible-matching loop body for one accepted combination: the id
counter advances unconditionally; the record, instance count and claimed
positions are only updated when the record is actually created. -/
def flexStep (pii : Pii) (st : PhraseState) (fm : FlexMatch) : PhraseState :=
  let m := createPiiMatch fm.words st.piiIdCounter pii fm.confidence
    (MatchType.flexible fm.matchedWords.length) fm.positions
  match m with
  | some r =>
    { piiData := st.piiData ++ [r],
      piiIdCounter := st.piiIdCounter + 1,
      foundPositions := fm.positions.foldl (fun fp p => p :: fp) st.foundPositions,
      instanceCount := st.instanceCount + 1 }
  | none => { st with piiIdCounter := st.piiIdCounter + 1 }

/-- The fuzzy-matching loop body for one kept candidate: skip a claimed
window start; otherwise create the record (the id counter advances even when
it is dropped) and claim the window positions only on emission. -/
def fuzzyStep (pii : Pii) (wordMap : List WordInfo) (st : PhraseState)
    (fz : FuzzyMatch) : PhraseState :=
  if fz.position ∈ st.foundPositions then st
  else
    let wordSlice := (wordMap.drop fz.position).take fz.matchedWords
    let m := createPiiMatch wordSlice st.piiIdCounter pii fz.confidence
      (MatchType.fuzzy fz.confidence) (List.range' fz.position fz.matchedWords)
    match m with
    | some r =>
      { piiData := st.piiData ++ [r],
        piiIdCounter := st.piiIdCounter + 1,
        foundPositions :=
          (List.range' fz.position fz.matchedWords).foldl (fun fp j => j :: fp)
            st.foundPositions,
        instanceCount := st.instanceCount + 1 }
    | none => { st with piiIdCounter := st.piiIdCounter + 1 }

/-- Processing of one phrase: generate variants; run the exact matcher over
every variant; run the flexible matcher when some variant has length at
least 4 and no exact occurrence was found; run the fuzzy matcher (at
threshold 0.85) when fewer than two instances were found so far. -/
def processPhrase (wordMap : List WordInfo) (st0 : PState) (pii : Pii) : PState :=
  let searchVariants := createSearchVariants pii.text
  let st1 : PhraseState := ⟨st0.piiData, st0.piiIdCounter, [], 0⟩
  let st2 := searchVariants.foldl (exactStep pii wordMap) st1
  let st3 :=
    if (searchVariants.any (fun v => v.length ≥ 4)) ∧ st2.instanceCount = 0 then
      (findFlexibleMatches searchVariants wordMap st2.foundPositions).foldl
        (flexStep pii) st2
    else st2
  let st4 :=
    if st3.instanceCount < 2 then
      (fuzzyMatchPII pii.text wordMap ((17 : ℚ)/20)).foldl
        (fuzzyStep pii wordMap) st3
    else st3
  ⟨st4.piiData, st4.piiIdCounter⟩

/-- The normalized word list built once per call:
`words.map(w => ({ text: normalize(w.text), boundingBox: w.boundingBox }))`. -/
def wordMapOf (words : List WordInfo) : List WordInfo :=
  words.map (fun w =>
    { text := normalizeToken w.text, boundingBox := w.boundingBox : WordInfo })

/-- Embedding of `mapPiiToBbox`: normalize the word texts once, then process
the phrases in order, threading the record list and the id counter. -/
def mapPiiToBbox (piiList : List Pii) (words : List WordInfo) : List PiiMatch :=
  (piiList.foldl (processPhrase (wordMapOf words)) ⟨[], 0⟩).piiData

/-! ### Helper lemmas -/

lemma foldl_min_le_init {α : Type} [LinearOrder α] (xs : List α) (a : α) :
    xs.foldl min a ≤ a := by
  induction xs generalizing a with
  | nil => simp
  | cons x xs ih => exact le_trans (ih (min a x)) (min_le_left a x)

lemma foldl_min_le_mem {α : Type} [LinearOrder α] (xs : List α) (a : α) :
    ∀ x ∈ xs, xs.foldl min a ≤ x := by
  induction xs generalizing a with
  | nil => simp
  | cons y ys ih =>
    intro x hx
    rcases List.mem_cons.mp hx with h | h
    · subst h
      exact le_trans (foldl_min_le_init ys (min a x)) (min_le_right a x)
    · exact ih (min a y) x h

lemma foldl_min_mem {α : Type} [LinearOrder α] (xs : List α) (a : α) :
    xs.foldl min a = a ∨ xs.foldl min a ∈ xs := by
  induction xs generalizing a with
  | nil => simp
  | cons y ys ih =>
    rcases ih (min a y) with h | h
    · rcases min_cases a y with ⟨hm, _⟩ | ⟨hm, _⟩
      · left; rw [List.foldl_cons, h, hm]
      · right; rw [List.foldl_cons, h, hm]; exact List.mem_cons_self y ys
    · exact Or.inr (List.mem_cons_of_mem y h)

lemma foldl_max_ge_init {α : Type} [LinearOrder α] (xs : List α) (a : α) :
    a ≤ xs.foldl max a := by
  induction xs generalizing a with
  | nil => simp
  | cons x xs ih => exact le_trans (le_max_left a x) (ih (max a x))

lemma foldl_max_ge_mem {α : Type} [LinearOrder α] (xs : List α) (a : α) :
    ∀ x ∈ xs, x ≤ xs.foldl max a := by
  induction xs generalizing a with
  | nil => simp
  | cons y ys ih =>
    intro x hx
    rcases List.mem_cons.mp hx with h | h
    · subst h
      exact le_trans (le_max_right a x) (foldl_max_ge_init ys (max a x))
    · exact ih (max a y) x h

lemma foldl_max_mem {α : Type} [LinearOrder α] (xs : List α) (a : α) :
    xs.foldl max a = a ∨ xs.foldl max a ∈ xs := by
  induction xs generalizing a with
  | nil => simp
  | cons y ys ih =>
    rcases ih (max a y) with h | h
    · rcases max_cases a y with ⟨hm, _⟩ | ⟨hm, _⟩
      · left; rw [List.foldl_cons, h, hm]
      · right; rw [List.foldl_cons, h, hm]; exact List.mem_cons_self y ys
    · exact Or.inr (List.mem_cons_of_mem y h)

lemma minQ_mem (l : List ℚ) (h : l ≠ []) : minQ l ∈ l := by
  cases l with
  | nil => simp at h
  | cons x xs =>
    rcases foldl_min_mem xs x with h1 | h1
    · simp [minQ, h1]
    · exact List.mem_cons_of_mem x (by simpa [minQ] using h1)

lemma minQ_le (l : List ℚ) : ∀ x ∈ l, minQ l ≤ x := by
  cases l with
  | nil => simp
  | cons y ys =>
    intro x hx
    rcases List.mem_cons.mp hx with h | h
    · subst h; exact foldl_min_le_init ys x
    · exact foldl_min_le_mem ys y x h

lemma maxQ_mem (l : List ℚ) (h : l ≠ []) : maxQ l ∈ l := by
  cases l with
  | nil => simp at h
  | cons x xs =>
    rcases foldl_max_mem xs x with h1 | h1
    · simp [maxQ, h1]
    · exact List.mem_cons_of_mem x (by simpa [maxQ] using h1)

lemma le_maxQ (l : List ℚ) : ∀ x ∈ l, x ≤ maxQ l := by
  cases l with
  | nil => simp
  | cons y ys =>
    intro x hx
    rcases List.mem_cons.mp hx with h | h
    · subst h; exact foldl_max_ge_init ys x
    · exact foldl_max_ge_mem ys y x h

/-- Generic preservation of an invariant along a left fold. -/
lemma foldl_preserve {S α : Type} (P : S → Prop) (f : S → α → S)
    (h : ∀ s a, P s → P (f s a)) :
    ∀ (l : List α) (s : S), P s → P (l.foldl f s) := by
  intro l
  induction l with
  | nil => intro s hs; simpa using hs
  | cons x xs ih => intro s hs; exact ih (f s x) (h s x hs)

/-- Membership in an inserted-descending list. -/
lemma mem_insertFlexDesc (m a : FlexMatch) (l : List FlexMatch) :
    a ∈ insertFlexDesc m l ↔ a = m ∨ a ∈ l := by
  induction l with
  | nil => simp [insertFlexDesc]
  | cons x xs ih =>
    by_cases h : x.confidence ≤ m.confidence
    · simp [insertFlexDesc, h]
    · simp only [insertFlexDesc, if_neg h, List.mem_cons, ih]
      tauto

lemma mem_sortFlexDesc (a : FlexMatch) (l : List FlexMatch) :
    a ∈ sortFlexDesc l ↔ a ∈ l := by
  induction l with
  | nil => simp [sortFlexDesc]
  | cons x xs ih =>
    simp only [sortFlexDesc, List.foldr_cons] at *
    rw [mem_insertFlexDesc, ih, List.mem_cons]

lemma pairwise_insertFlexDesc (m : FlexMatch) (l : List FlexMatch)
    (h : l.Pairwise (fun a b => b.confidence ≤ a.confidence)) :
    (insertFlexDesc m l).Pairwise (fun a b => b.confidence ≤ a.confidence) := by
  induction l with
  | nil => simp [insertFlexDesc]
  | cons x xs ih =>
    rcases List.pairwise_cons.mp h with ⟨hx, hxs⟩
    by_cases hc : x.confidence ≤ m.confidence
    · have he : insertFlexDesc m (x :: xs) = m :: x :: xs := by
        simp [insertFlexDesc, hc]
      rw [he]
      refine List.pairwise_cons.mpr ⟨?_, h⟩
      intro b hb
      rcases List.mem_cons.mp hb with rfl | hb
      · exact hc
      · exact le_trans (hx b hb) hc
    · have he : insertFlexDesc m (x :: xs) = x :: insertFlexDesc m xs := by
        simp [insertFlexDesc, hc]
      rw [he]
      refine List.pairwise_cons.mpr ⟨?_, ih hxs⟩
      intro b hb
      rcases (mem_insertFlexDesc m b xs).mp hb with rfl | hb
      · exact le_of_not_le hc
      · exact hx b hb

lemma pairwise_sortFlexDesc (l : List FlexMatch) :
    (sortFlexDesc l).Pairwise (fun a b => b.confidence ≤ a.confidence) := by
  induction l with
  | nil => simp [sortFlexDesc]
  | cons x xs ih => exact pairwise_insertFlexDesc x (sortFlexDesc xs) ih

lemma mem_insertFuzzyDesc (m a : FuzzyMatch) (l : List FuzzyMatch) :
    a ∈ insertFuzzyDesc m l ↔ a = m ∨ a ∈ l := by
  induction l with
  | nil => simp [insertFuzzyDesc]
  | cons x xs ih =>
    by_cases h : x.confidence ≤ m.confidence
    · simp [insertFuzzyDesc, h]
    · simp only [insertFuzzyDesc, if_neg h, List.mem_cons, ih]
      tauto

lemma mem_sortFuzzyDesc (a : FuzzyMatch) (l : List FuzzyMatch) :
    a ∈ sortFuzzyDesc l ↔ a ∈ l := by
  induction l with
  | nil => simp [sortFuzzyDesc]
  | cons x xs ih =>
    simp only [sortFuzzyDesc, List.foldr_cons] at *
    rw [mem_insertFuzzyDesc, ih, List.mem_cons]

/-- Membership characterization of the suppression pass: an element of the
array is kept exactly when no candidate occurring before it in the sorted
array (kept or suppressed) overlaps it; `seen` is the already-passed part. -/
lemma nmsGo_mem (l : List FuzzyMatch) : ∀ (seen : List FuzzyMatch) (m : FuzzyMatch),
    m ∈ nmsGo seen l ↔
      ∃ i, ∃ h : i < l.length, l.get ⟨i, h⟩ = m ∧
        ∀ prev ∈ seen ++ l.take i, fuzzyOverlaps prev m = false := by
  induction l with
  | nil =>
    intro seen m
    simp [nmsGo]
  | cons a rest ih =>
    intro seen m
    have hunfold : nmsGo seen (a :: rest) =
        if seen.any (fun prev => fuzzyOverlaps prev a) then nmsGo (seen ++ [a]) rest
        else a :: nmsGo (seen ++ [a]) rest := rfl
    have happ : ∀ i : Nat, (seen ++ [a]) ++ rest.take i = seen ++ (a :: rest).take (i + 1) := by
      intro i
      simp [List.take_succ_cons]
    constructor
    · intro hm
      by_cases hs : seen.any (fun prev => fuzzyOverlaps prev a)
      · rw [hunfold, if_pos hs] at hm
        rcases (ih (seen ++ [a]) m).mp hm with ⟨i, hi, hget, hall⟩
        refine ⟨i + 1, Nat.succ_lt_succ hi, hget, ?_⟩
        intro prev hprev
        exact hall prev (by rw [happ i]; exact hprev)
      · rw [hunfold, if_neg hs] at hm
        rcases List.mem_cons.mp hm with rfl | hm
        · refine ⟨0, by simp, by simp, ?_⟩
          intro prev hprev
          simp only [List.take_zero, List.append_nil] at hprev
          have hf : seen.any (fun prev => fuzzyOverlaps prev m) = false :=
            Bool.eq_false_iff.mpr hs
          rw [List.any_eq_false] at hf
          exact Bool.eq_false_iff.mpr (hf prev hprev)
        · rcases (ih (seen ++ [a]) m).mp hm with ⟨i, hi, hget, hall⟩
          refine ⟨i + 1, Nat.succ_lt_succ hi, hget, ?_⟩
          intro prev hprev
          exact hall prev (by rw [happ i]; exact hprev)
    · rintro ⟨i, hi, hget, hall⟩
      cases i with
      | zero =>
        have ha : a = m := hget
        subst ha
        have hs : ¬ (seen.any fun prev => fuzzyOverlaps prev a) = true := by
          rw [List.any_eq_true]
          rintro ⟨prev, hprev, hb⟩
          have := hall prev (by simpa using hprev)
          rw [this] at hb
          exact Bool.false_ne_true hb
        rw [hunfold, if_neg hs]
        exact List.mem_cons_self _ _
      | succ k =>
        have hk : k < rest.length := Nat.lt_of_succ_lt_succ hi
        have hget2 : rest.get ⟨k, hk⟩ = m := hget
        have hall2 : ∀ prev ∈ (seen ++ [a]) ++ rest.take k, fuzzyOverlaps prev m = false := by
          intro prev hprev
          exact hall prev (by rw [happ k] at hprev; exact hprev)
        have hmem : m ∈ nmsGo (seen ++ [a]) rest :=
          (ih (seen ++ [a]) m).mpr ⟨k, hk, hget2, hall2⟩
        by_cases hs : seen.any (fun prev => fuzzyOverlaps prev a)
        · rw [hunfold, if_pos hs]; exact hmem
        · rw [hunfold, if_neg hs]; exact List.mem_cons_of_mem a hmem

lemma createPiiMatch_eq_none_iff (ws : List WordInfo) (idv : Nat) (pii : Pii)
    (conf : ℚ) (mt : MatchType) (pos : List Nat) :
    createPiiMatch ws idv pii conf mt pos = none ↔
      ∀ v ∈ allVerticesOf ws, ¬ (isValidVertex v = true) := by
  by_cases h : (validVerticesOf ws).isEmpty
  · constructor
    · intro _
      rw [List.isEmpty_iff] at h
      exact List.filter_eq_nil_iff.mp h
    · intro _
      simp [createPiiMatch, h]
  · constructor
    · intro hc
      simp [createPiiMatch, h] at hc
    · intro hall
      exact absurd (List.isEmpty_iff.mpr (List.filter_eq_nil_iff.mpr hall)) h

/-- The record produced by a successful `createPiiMatch`, in explicit form. -/
lemma createPiiMatch_eq_some (ws : List WordInfo) (idv : Nat) (pii : Pii)
    (conf : ℚ) (mt : MatchType) (pos : List Nat) (r : PiiMatch)
    (h : createPiiMatch ws idv pii conf mt pos = some r) :
    r = { id := idv, label := pii.label, text := pii.text,
          bbox := (minQ ((validVerticesOf ws).filterMap Vertex.x),
                   minQ ((validVerticesOf ws).filterMap Vertex.y),
                   maxQ ((validVerticesOf ws).filterMap Vertex.x) -
                     minQ ((validVerticesOf ws).filterMap Vertex.x),
                   maxQ ((validVerticesOf ws).filterMap Vertex.y) -
                     minQ ((validVerticesOf ws).filterMap Vertex.y)),
          vertices := validVerticesOf ws, redacted := true,
          confidence := conf, matchType := mt, positions := pos } := by
  by_cases hv : (validVerticesOf ws).isEmpty
  · simp [createPiiMatch, hv] at h
  · rw [createPiiMatch] at h
    simp only [hv, if_false, Bool.false_eq_true, Option.some.injEq] at h
    exact h.symm

lemma filterMap_x_ne_nil (ws : List WordInfo) (h : validVerticesOf ws ≠ []) :
    (validVerticesOf ws).filterMap Vertex.x ≠ [] := by
  obtain ⟨v, rest, hv⟩ : ∃ v rest, validVerticesOf ws = v :: rest := by
    cases hl : validVerticesOf ws with
    | nil => exact absurd hl h
    | cons v rest => exact ⟨v, rest, rfl⟩
  have hmem : v ∈ validVerticesOf ws := by rw [hv]; exact List.mem_cons_self _ _
  have hvalid : isValidVertex v = true := (List.mem_filter.mp hmem).2
  rw [isValidVertex, Bool.and_eq_true] at hvalid
  obtain ⟨q, hq⟩ := Option.isSome_iff_exists.mp hvalid.1
  intro hnil
  have hq2 : q ∈ (validVerticesOf ws).filterMap Vertex.x :=
    List.mem_filterMap.mpr ⟨v, hmem, hq⟩
  rw [hnil] at hq2
  exact List.not_mem_nil q hq2

lemma filterMap_y_ne_nil (ws : List WordInfo) (h : validVerticesOf ws ≠ []) :
    (validVerticesOf ws).filterMap Vertex.y ≠ [] := by
  obtain ⟨v, rest, hv⟩ : ∃ v rest, validVerticesOf ws = v :: rest := by
    cases hl : validVerticesOf ws with
    | nil => exact absurd hl h
    | cons v rest => exact ⟨v, rest, rfl⟩
  have hmem : v ∈ validVerticesOf ws := by rw [hv]; exact List.mem_cons_self _ _
  have hvalid : isValidVertex v = true := (List.mem_filter.mp hmem).2
  rw [isValidVertex, Bool.and_eq_true] at hvalid
  obtain ⟨q, hq⟩ := Option.isSome_iff_exists.mp hvalid.2
  intro hnil
  have hq2 : q ∈ (validVerticesOf ws).filterMap Vertex.y :=
    List.mem_filterMap.mpr ⟨v, hmem, hq⟩
  rw [hnil] at hq2
  exact List.not_mem_nil q hq2

/-- Claim C7: for every accepted candidate, the bounding-box computation
discards every vertex without numeric coordinates, fails exactly when no
valid vertex remains, and otherwise emits the surviving vertices in their
original order together with the envelope box
`[x0, y0, x1 - x0, y1 - y0]` where `x0, y0` are the coordinate minima and
`x1, y1` the maxima over the surviving vertices. -/
theorem claim_C7_bbox (ws : List WordInfo) (idv : Nat) (pii : Pii)
    (conf : ℚ) (mt : MatchType) (pos : List Nat) :
    (createPiiMatch ws idv pii conf mt pos = none ↔
      ∀ v ∈ allVerticesOf ws, ¬ (isValidVertex v = true)) ∧
    (∀ r, createPiiMatch ws idv pii conf mt pos = some r →
      r.vertices = (allVerticesOf ws).filter isValidVertex ∧
      (r.bbox.1 ∈ r.vertices.filterMap Vertex.x ∧
        ∀ x ∈ r.vertices.filterMap Vertex.x, r.bbox.1 ≤ x) ∧
      (r.bbox.2.1 ∈ r.vertices.filterMap Vertex.y ∧
        ∀ y ∈ r.vertices.filterMap Vertex.y, r.bbox.2.1 ≤ y) ∧
      (∃ x1 ∈ r.vertices.filterMap Vertex.x,
        r.bbox.2.2.1 = x1 - r.bbox.1 ∧ ∀ x ∈ r.vertices.filterMap Vertex.x, x ≤ x1) ∧
      (∃ y1 ∈ r.vertices.filterMap Vertex.y,
        r.bbox.2.2.2 = y1 - r.bbox.2.1 ∧ ∀ y ∈ r.vertices.filterMap Vertex.y, y ≤ y1)) := by
  refine ⟨createPiiMatch_eq_none_iff ws idv pii conf mt pos, ?_⟩
  intro r h
  have hv : ¬ (validVerticesOf ws).isEmpty = true := by
    intro hv
    simp [createPiiMatch, hv] at h
  have hnil : validVerticesOf ws ≠ [] := fun hn => hv (List.isEmpty_iff.mpr hn)
  have hr := createPiiMatch_eq_some ws idv pii conf mt pos r h
  subst hr
  refine ⟨rfl, ⟨?_, ?_⟩, ⟨?_, ?_⟩, ⟨maxQ ((validVerticesOf ws).filterMap Vertex.x), ?_, rfl, ?_⟩,
    ⟨maxQ ((validVerticesOf ws).filterMap Vertex.y), ?_, rfl, ?_⟩⟩
  · exact minQ_mem _ (filterMap_x_ne_nil ws hnil)
  · exact minQ_le _
  · exact minQ_mem _ (filterMap_y_ne_nil ws hnil)
  · exact minQ_le _
  · exact maxQ_mem _ (filterMap_x_ne_nil ws hnil)
  · exact le_maxQ _
  · exact maxQ_mem _ (filterMap_y_ne_nil ws hnil)
  · exact le_maxQ _

/-- Concrete input for the C7 witness: one word with two valid vertices and
one vertex lacking a numeric x. -/
def vtxA : Vertex := ⟨some 3, some 5⟩

def vtxB : Vertex := ⟨some 1, some 2⟩

def vtxBad : Vertex := ⟨none, some 9⟩

def wordC7 : WordInfo := ⟨"w", some ⟨[vtxA, vtxB, vtxBad]⟩⟩

def recC7 : PiiMatch :=
  ⟨0, "L", "T", (1, 2, (3 : ℚ) - 1, (5 : ℚ) - 2), [vtxA, vtxB], true, 1,
    MatchType.exact ["w"], [0]⟩

/-- Witness for C7 at a concrete candidate: the surviving vertices are the
valid ones in original order. -/
theorem claim_C7_bbox_witness :
    recC7.vertices = (allVerticesOf [wordC7]).filter isValidVertex :=
  ((claim_C7_bbox [wordC7] 0 ⟨"T", "L"⟩ 1 (MatchType.exact ["w"]) [0]).2 recC7
    rfl).1

lemma isAlnum_not_ws (c : Char) (h : isAlnumChar c = true) : isWsChar c = false := by
  cases hw : isWsChar c with
  | false => rfl
  | true =>
    exfalso
    simp only [isWsChar, Bool.or_eq_true, decide_eq_true_eq] at hw
    rcases hw with ((h1 | h1) | h1) | h1 <;> subst h1 <;> exact absurd h (by decide)

lemma isAlnum_not_sep (c : Char) (h : isAlnumChar c = true) : isSepChar c = false := by
  cases hw : isSepChar c with
  | false => rfl
  | true =>
    exfalso
    simp only [isSepChar, Bool.or_eq_true, decide_eq_true_eq] at hw
    rcases hw with ((h1 | h1) | h1) | h1 <;> subst h1 <;> exact absurd h (by decide)

lemma normalizeToken_eq_self (s : String) (h : ∀ c ∈ s.toList, isAlnumChar c = true) :
    normalizeToken s = s := by
  rw [normalizeToken, List.filter_eq_self.mpr h]
  rfl

lemma splitWsAux_all_nonws : ∀ (l cur : List Char), (∀ c ∈ l, isWsChar c = false) →
    splitWsAux l cur =
      if (cur.reverse ++ l).isEmpty then [] else [String.mk (cur.reverse ++ l)] := by
  intro l
  induction l with
  | nil =>
    intro cur _
    cases cur <;> simp [splitWsAux]
  | cons d rest ih =>
    intro cur hl
    have hd : isWsChar d = false := hl d (List.mem_cons_self d rest)
    have hrest : ∀ c ∈ rest, isWsChar c = false :=
      fun c hc => hl c (List.mem_cons_of_mem d hc)
    have hstep : splitWsAux (d :: rest) cur = splitWsAux rest (d :: cur) := by
      cases cur <;> simp [splitWsAux, hd]
    rw [hstep, ih (d :: cur) hrest]
    simp [List.reverse_cons, List.append_assoc]

lemma splitWs_eq_single (s : String) (hne : s.toList ≠ [])
    (h : ∀ c ∈ s.toList, isWsChar c = false) : splitWs s = [s] := by
  have hie : ¬ s.toList.isEmpty = true := by
    rw [List.isEmpty_iff]
    exact hne
  simp only [splitWs]
  rw [splitWsAux_all_nonws s.toList [] h]
  simp only [List.reverse_nil, List.nil_append]
  rw [if_neg hie]
  rw [if_neg (by simp)]
  rfl

lemma replaceSeps_eq_self (s : String) (h : ∀ c ∈ s.toList, isSepChar c = false) :
    replaceSeps s = s := by
  rw [replaceSeps]
  have hmap : s.toList.map (fun c => if isSepChar c then ' ' else c) = s.toList := by
    conv_rhs => rw [← List.map_id s.toList]
    refine List.map_congr_left ?_
    intro c hc
    simp [h c hc]
  rw [hmap]
  rfl

lemma spacedSplitAux_chain : ∀ (l : List Char) (c : Char) (cur : List Char),
    List.Chain (fun a b => isBoundaryPair a b = false) c l →
    spacedSplitAux l (c :: cur) = [String.mk ((c :: cur).reverse ++ l)] := by
  intro l
  induction l with
  | nil =>
    intro c cur _
    simp [spacedSplitAux]
  | cons d rest ih =>
    intro c cur hchain
    rcases List.chain_cons.mp hchain with ⟨hcd, hrest⟩
    have hstep : spacedSplitAux (d :: rest) (c :: cur) = spacedSplitAux rest (d :: c :: cur) := by
      simp [spacedSplitAux, hcd]
    rw [hstep, ih d (c :: cur) hrest]
    simp [List.reverse_cons, List.append_assoc]

lemma spacedSplit_eq_single (s : String) (hne : s.toList ≠ [])
    (h : List.Chain' (fun a b => isBoundaryPair a b = false) s.toList) :
    spacedSplit s = [s] := by
  rw [spacedSplit]
  cases hlist : s.toList with
  | nil => exact absurd hlist hne
  | cons c l =>
    rw [hlist] at h
    have hstep : spacedSplitAux (c :: l) [] = spacedSplitAux l [c] := by
      simp [spacedSplitAux]
    rw [hstep, spacedSplitAux_chain l c [] h]
    have hmk : String.mk (c :: l) = s := by rw [← hlist]; rfl
    simp [hmk]

/-- Claim C2 fails as stated: the phrase `A1` has a single-token base of
normalized length 2 < 4, yet the generator returns two variants, because the
letter/digit boundary split of variant 3 carries no length threshold. -/
theorem claim_C2_counterexample :
    ((splitWs "A1").map normalizeToken).length = 1 ∧
    (((splitWs "A1").map normalizeToken).headD "").length < 4 ∧
    createSearchVariants "A1" = [["A1"], ["A", "1"]] := by decide

/-- Claim C2 (amended): for a phrase that is one nonempty all-alphanumeric
token of length < 4 with no letter/digit transition, the variant generator
returns exactly the base variant. The original claim additionally allowed
letter/digit transitions, on which the boundary-split variant is emitted. -/
theorem claim_C2_amended (s : String)
    (h1 : ∀ c ∈ s.toList, isAlnumChar c = true)
    (h2 : s.toList ≠ [])
    (h3 : s.length < 4)
    (h4 : List.Chain' (fun a b => isBoundaryPair a b = false) s.toList) :
    createSearchVariants s = [[s]] := by
  have hws : ∀ c ∈ s.toList, isWsChar c = false := fun c hc => isAlnum_not_ws c (h1 c hc)
  have hsep : ∀ c ∈ s.toList, isSepChar c = false := fun c hc => isAlnum_not_sep c (h1 c hc)
  have hsplit : splitWs s = [s] := splitWs_eq_single s h2 hws
  have hnorm : normalizeToken s = s := normalizeToken_eq_self s h1
  have hspaced : spacedSplit s = [s] := spacedSplit_eq_single s h2 h4
  have hrs : replaceSeps s = s := replaceSeps_eq_self s hsep
  have hpos : 0 < s.length := List.length_pos.mpr h2
  have hlen : ¬ (4 ≤ s.length) := by omega
  rw [createSearchVariants]
  simp only [hsplit, hrs, List.map_cons, List.map_nil, hnorm, List.length_cons,
    List.length_nil, Nat.zero_add, List.headD_cons, hspaced, gt_iff_lt]
  norm_num [hlen, hpos, dedupVariants]

/-- Witness for the amended C2 at the concrete phrase `abc`. -/
theorem claim_C2_amended_witness : createSearchVariants "abc" = [["abc"]] :=
  claim_C2_amended "abc" (by decide) (by decide) (by decide)
    (List.Chain.cons (by decide) (List.Chain.cons (by decide) List.Chain.nil))

/-- Concrete OCR words for the C1 overlap run: each word has one valid
vertex so that every accepted candidate is emitted. -/
def cexWords1 : List WordInfo :=
  [⟨"B", some ⟨[⟨some 0, some 0⟩]⟩⟩, ⟨"A", some ⟨[⟨some 1, some 0⟩]⟩⟩,
   ⟨"B", some ⟨[⟨some 2, some 0⟩]⟩⟩, ⟨"AB", some ⟨[⟨some 3, some 0⟩]⟩⟩]

/-- Claim C1 is violated by the code: for the single phrase `B A-B` over the
words `B A B AB`, the exact matcher accepts the variant `[B, AB]` at start 2
(claiming positions 2 and 3) and then accepts the variant `[B, A, B]` at
start 0, whose window also covers position 2, because only window starts are
checked against the claimed-position set. Both emitted records reference
word index 2. -/
theorem claim_C1_overlap_bug :
    (mapPiiToBbox [⟨"B A-B", "Name"⟩] cexWords1).map PiiMatch.positions =
      [[2, 3], [0, 1, 2]] ∧
    2 ∈ ([2, 3] : List Nat) ∧ 2 ∈ ([0, 1, 2] : List Nat) := by decide

/-- Membership characterization of the flexible candidate list. -/
lemma mem_findFlexibleCandidates (sv : List (List String)) (wm : List WordInfo)
    (fp : List Nat) (m : FlexMatch) :
    m ∈ findFlexibleCandidates sv wm fp ↔
      ∃ v ∈ sv, ¬ v.length < 3 ∧ ¬ ((v.map (occurrencePositions wm)).any List.isEmpty = true) ∧
        ∃ combo ∈ findCombinations (v.map (occurrencePositions wm)) [],
          (flexSpan combo ≤ 20 ∧ ¬ (combo.any (fun pos => pos ∈ fp) = true)) ∧
          m = mkFlexMatch wm v combo := by
  rw [findFlexibleCandidates, List.mem_flatMap]
  constructor
  · rintro ⟨v, hv, hin⟩
    by_cases h3 : v.length < 3
    · rw [if_pos h3] at hin
      simp at hin
    · rw [if_neg h3] at hin
      by_cases hemp : (v.map (occurrencePositions wm)).any List.isEmpty = true
      · rw [if_pos hemp] at hin
        simp at hin
      · rw [if_neg hemp] at hin
        rcases List.mem_filterMap.mp hin with ⟨combo, hcombo, heq⟩
        by_cases hacc : flexSpan combo ≤ 20 ∧ ¬ (combo.any (fun pos => pos ∈ fp) = true)
        · rw [if_pos hacc] at heq
          exact ⟨v, hv, h3, hemp, combo, hcombo, hacc, (Option.some.inj heq).symm⟩
        · rw [if_neg hacc] at heq
          simp at heq
  · rintro ⟨v, hv, h3, hemp, combo, hcombo, hacc, rfl⟩
    refine ⟨v, hv, ?_⟩
    rw [if_neg h3, if_neg hemp]
    exact List.mem_filterMap.mpr ⟨combo, hcombo, by rw [if_pos hacc]⟩

/-- Concrete OCR words for the C4 and C5 runs. -/
def cexWords4 : List WordInfo :=
  [⟨"A", some ⟨[⟨some 0, some 0⟩]⟩⟩, ⟨"x", some ⟨[⟨some 1, some 0⟩]⟩⟩,
   ⟨"BC", some ⟨[⟨some 2, some 0⟩]⟩⟩, ⟨"D", some ⟨[⟨some 3, some 0⟩]⟩⟩]

/-- Claim C4 fails as stated: for the phrase `A B-C D` over the words
`A x BC D`, the flexible step is triggered (the separator-expansion variant
has length 4 and the exact matcher finds nothing), and the variant
`[A, BC, D]` of length 3 — not a qualifying long variant in the sense of the
claim — produces the only flexible candidate; under the claim the step would
produce none, since the single length-4 variant has an unmatchable token. -/
theorem claim_C4_counterexample :
    (createSearchVariants "A B-C D").any (fun v => 4 ≤ v.length) = true ∧
    ((createSearchVariants "A B-C D").foldl
      (exactStep ⟨"A B-C D", "N"⟩ (wordMapOf cexWords4)) ⟨[], 0, [], 0⟩).instanceCount = 0 ∧
    ((createSearchVariants "A B-C D").foldl
      (exactStep ⟨"A B-C D", "N"⟩ (wordMapOf cexWords4)) ⟨[], 0, [], 0⟩).foundPositions = [] ∧
    (findFlexibleMatches (createSearchVariants "A B-C D") (wordMapOf cexWords4) []).map
      FlexMatch.matchedWords = [["A", "BC", "D"]] := by decide

/-- Claim C4 (amended): the flexible step is triggered exactly as the claim
states, but within the step the searched variants are those of length at
least 3, not at least 4: every flexible candidate arises from a variant of
length at least 3 of the phrase, and when every variant is shorter than 3
the step produces nothing. -/
theorem claim_C4_amended (sv : List (List String)) (wm : List WordInfo) (fp : List Nat) :
    (∀ m ∈ findFlexibleMatches sv wm fp, m.matchedWords ∈ sv ∧ 3 ≤ m.matchedWords.length) ∧
    ((∀ v ∈ sv, v.length < 3) → findFlexibleMatches sv wm fp = []) := by
  constructor
  · intro m hm
    have hm2 : m ∈ sortFlexDesc (findFlexibleCandidates sv wm fp) :=
      List.mem_of_mem_take hm
    have hm3 : m ∈ findFlexibleCandidates sv wm fp := (mem_sortFlexDesc m _).mp hm2
    rcases (mem_findFlexibleCandidates sv wm fp m).mp hm3 with
      ⟨v, hv, h3, _, combo, _, _, rfl⟩
    exact ⟨hv, Nat.le_of_not_lt h3⟩
  · intro hshort
    have hc : findFlexibleCandidates sv wm fp = [] := by
      rw [findFlexibleCandidates, List.flatMap_eq_nil_iff]
      intro v hv
      rw [if_pos (hshort v hv)]
    rw [findFlexibleMatches, hc]
    rfl

/-- Witness for the amended C4: the concrete flexible candidate of the
`A B-C D` run comes from the length-3 variant `[A, BC, D]`. -/
theorem claim_C4_amended_witness :
    (mkFlexMatch (wordMapOf cexWords4) ["A", "BC", "D"] [0, 2, 3]).matchedWords ∈
      createSearchVariants "A B-C D" ∧
    3 ≤ (mkFlexMatch (wordMapOf cexWords4) ["A", "BC", "D"] [0, 2, 3]).matchedWords.length :=
  (claim_C4_amended (createSearchVariants "A B-C D") (wordMapOf cexWords4) []).1
    (mkFlexMatch (wordMapOf cexWords4) ["A", "BC", "D"] [0, 2, 3])
    (by
      have h : findFlexibleMatches (createSearchVariants "A B-C D") (wordMapOf cexWords4) [] =
          [mkFlexMatch (wordMapOf cexWords4) ["A", "BC", "D"] [0, 2, 3]] := rfl
      rw [h]
      exact List.mem_singleton_self _)

/-- Claim C5: a complete flexible assignment is accepted exactly when its
span is at most 20 (so span 20 passes and span 21 fails) and no assigned
position is already claimed; each accepted combination carries confidence
`max(0.7, 1 - span / 100)`; and across all variants at most the 3 highest
confidences are kept, in descending order. -/
theorem claim_C5_flexible (sv : List (List String)) (wm : List WordInfo) (fp : List Nat) :
    (∀ m ∈ findFlexibleCandidates sv wm fp,
      m.confidence = max ((7 : ℚ)/10) (1 - (flexSpan m.positions : ℚ)/100) ∧
      flexSpan m.positions ≤ 20 ∧ ∀ p ∈ m.positions, p ∉ fp) ∧
    (∀ v ∈ sv, ¬ v.length < 3 →
      ¬ ((v.map (occurrencePositions wm)).any List.isEmpty = true) →
      ∀ combo ∈ findCombinations (v.map (occurrencePositions wm)) [],
        flexSpan combo ≤ 20 → (∀ p ∈ combo, p ∉ fp) →
        mkFlexMatch wm v combo ∈ findFlexibleCandidates sv wm fp) ∧
    (findFlexibleMatches sv wm fp).length ≤ 3 ∧
    (findFlexibleMatches sv wm fp).Pairwise (fun a b => b.confidence ≤ a.confidence) ∧
    (∀ m ∈ findFlexibleMatches sv wm fp, m ∈ findFlexibleCandidates sv wm fp) ∧
    (∀ m ∈ findFlexibleMatches sv wm fp, ∀ m2 ∈ findFlexibleCandidates sv wm fp,
      m2 ∉ findFlexibleMatches sv wm fp → m2.confidence ≤ m.confidence) := by
  refine ⟨?_, ?_, ?_, ?_, ?_, ?_⟩
  · intro m hm
    rcases (mem_findFlexibleCandidates sv wm fp m).mp hm with
      ⟨v, _, _, _, combo, _, hacc, rfl⟩
    refine ⟨rfl, hacc.1, ?_⟩
    intro p hp hpfp
    rcases hacc with ⟨_, hnone⟩
    apply hnone
    rw [List.any_eq_true]
    exact ⟨p, hp, by simpa using hpfp⟩
  · intro v hv h3 hemp combo hcombo hspan hfree
    refine (mem_findFlexibleCandidates sv wm fp (mkFlexMatch wm v combo)).mpr
      ⟨v, hv, h3, hemp, combo, hcombo, ⟨hspan, ?_⟩, rfl⟩
    rw [List.any_eq_true]
    rintro ⟨p, hp, hpfp⟩
    exact hfree p hp (by simpa using hpfp)
  · exact List.length_take_le 3 _
  · exact List.Pairwise.sublist (List.take_sublist 3 _) (pairwise_sortFlexDesc _)
  · intro m hm
    exact (mem_sortFlexDesc m _).mp (List.mem_of_mem_take hm)
  · intro m hm m2 hm2 hnot
    have hfl : m2 ∈ sortFlexDesc (findFlexibleCandidates sv wm fp) :=
      (mem_sortFlexDesc m2 _).mpr hm2
    have hpw := pairwise_sortFlexDesc (findFlexibleCandidates sv wm fp)
    have hsplit := List.take_append_drop 3 (sortFlexDesc (findFlexibleCandidates sv wm fp))
    rw [← hsplit] at hpw hfl
    have hdrop : m2 ∈ (sortFlexDesc (findFlexibleCandidates sv wm fp)).drop 3 := by
      rcases List.mem_append.mp hfl with h | h
      · exact absurd h hnot
      · exact h
    exact (List.pairwise_append.mp hpw).2.2 m hm m2 hdrop

/-- Witness for C5: the combination `[0, 2, 3]` of the length-3 variant in
the `A B-C D` run has span 4 and no claimed position, so it is accepted. -/
theorem claim_C5_flexible_witness :
    mkFlexMatch (wordMapOf cexWords4) ["A", "BC", "D"] [0, 2, 3] ∈
      findFlexibleCandidates (createSearchVariants "A B-C D") (wordMapOf cexWords4) [] :=
  (claim_C5_flexible (createSearchVariants "A B-C D") (wordMapOf cexWords4) []).2.1
    ["A", "BC", "D"] (by decide) (by decide) (by decide) [0, 2, 3] (by decide)
    (by decide) (by decide)

lemma levFold_nil_aux : ∀ (a : List Char) (k : Nat),
    a.foldl (fun row x => (row.headD 0 + 1) :: levRowAux x [] row (row.headD 0 + 1)) [k] =
      [k + a.length] := by
  intro a
  induction a with
  | nil => intro k; simp
  | cons x xs ih =>
    intro k
    rw [List.foldl_cons]
    have hstep : ((([k] : List Nat).headD 0 + 1) :: levRowAux x [] [k] (([k] : List Nat).headD 0 + 1)) = [k + 1] := rfl
    rw [hstep, ih (k + 1)]
    congr 1
    simp
    omega

lemma levenshtein_nil_right (a : List Char) : levenshtein a [] = a.length := by
  rw [levenshtein, levFold]
  have h : List.range (List.length ([] : List Char) + 1) = [0] := rfl
  rw [h, levFold_nil_aux a 0]
  simp

/-- Claim C6: for a phrase with nonempty normalization, the fuzzy matcher
keeps exactly the candidates of the windows of every length from 1 to
`min(5, word count)` at every valid start whose similarity (one minus the
edit distance of the normalized lower-cased phrase and the concatenated
normalized lower-cased window, divided by the longer length) reaches 0.85;
in particular any candidate below 0.85 is rejected. -/
theorem claim_C6_fuzzy_windows (p : String) (ws : List WordInfo) (m : FuzzyMatch)
    (hp : lowerNorm p ≠ "") :
    m ∈ fuzzyCandidates p ws ((17 : ℚ)/20) ↔
      ∃ span i, 1 ≤ span ∧ span ≤ min 5 ws.length ∧ i + span ≤ ws.length ∧
        m = ⟨i, specSimilarity (lowerNorm p) (windowCandidate ws i span), span⟩ ∧
        (17 : ℚ)/20 ≤ specSimilarity (lowerNorm p) (windowCandidate ws i span) := by
  have hq : (lowerNorm p).toList ≠ [] := by
    intro h
    apply hp
    calc lowerNorm p = String.mk (lowerNorm p).toList := rfl
      _ = String.mk [] := by rw [h]
      _ = "" := rfl
  have hqpos : 0 < (lowerNorm p).length := List.length_pos.mpr hq
  rw [fuzzyCandidates, List.mem_flatMap]
  constructor
  · rintro ⟨span, hspan, hin⟩
    rw [List.mem_range'_1] at hspan
    rcases List.mem_filterMap.mp hin with ⟨i, hi, heq⟩
    rw [List.mem_range] at hi
    have hspanle : span ≤ ws.length := le_trans (by omega) (min_le_right 5 ws.length)
    by_cases hclen : (windowCandidate ws i span).length > 0
    · rw [if_pos hclen] at heq
      by_cases hth : (17 : ℚ)/20 ≤
          specSimilarity (lowerNorm p) (windowCandidate ws i span)
      · rw [if_pos hth] at heq
        exact ⟨span, i, hspan.1, by omega, by omega, (Option.some.inj heq).symm, hth⟩
      · rw [if_neg hth] at heq
        simp at heq
    · rw [if_neg hclen] at heq
      simp at heq
  · rintro ⟨span, i, h1, h2, h3, rfl, hth⟩
    have hspanle : span ≤ ws.length := le_trans h2 (min_le_right 5 ws.length)
    have hclen : (windowCandidate ws i span).length > 0 := by
      by_contra hlen
      push_neg at hlen
      have hc0 : (windowCandidate ws i span).length = 0 := Nat.le_zero.mp hlen
      have hnil : (windowCandidate ws i span).toList = [] :=
        List.length_eq_zero.mp hc0
      have hsim0 : specSimilarity (lowerNorm p) (windowCandidate ws i span) = 0 := by
        rw [specSimilarity, hnil, levenshtein_nil_right, hc0]
        have hlen_eq : (lowerNorm p).toList.length = (lowerNorm p).length := rfl
        rw [hlen_eq, Nat.cast_zero, max_eq_left (Nat.cast_nonneg _)]
        rw [div_self (by exact_mod_cast Nat.pos_iff_ne_zero.mp hqpos)]
        norm_num
      rw [hsim0] at hth
      norm_num at hth
    refine ⟨span, ?_, ?_⟩
    · rw [List.mem_range'_1]
      omega
    · refine List.mem_filterMap.mpr ⟨i, ?_, ?_⟩
      · rw [List.mem_range]
        omega
      · rw [if_pos hclen, if_pos hth]

/-- Concrete OCR words for the fuzzy runs of C3 and C6. -/
def cexWordsFuzzy : List WordInfo :=
  [⟨"x", some ⟨[⟨some 0, some 0⟩]⟩⟩, ⟨"y", some ⟨[⟨some 1, some 0⟩]⟩⟩,
   ⟨"abab", some ⟨[⟨some 2, some 0⟩]⟩⟩, ⟨"ab", some ⟨[⟨some 3, some 0⟩]⟩⟩,
   ⟨"ab", some ⟨[⟨some 4, some 0⟩]⟩⟩, ⟨"ab", some ⟨[⟨some 5, some 0⟩]⟩⟩]

/-- Witness for C6: the single-word window `abab` at position 2 has
similarity 1 and is kept. -/
theorem claim_C6_fuzzy_windows_witness :
    (⟨2, 1, 1⟩ : FuzzyMatch) ∈ fuzzyCandidates "abab" cexWordsFuzzy ((17 : ℚ)/20) := by
  have hlev : levenshtein (lowerNorm "abab").toList (windowCandidate cexWordsFuzzy 2 1).toList = 0 := by
    decide
  have hsim : specSimilarity (lowerNorm "abab") (windowCandidate cexWordsFuzzy 2 1) = 1 := by
    rw [specSimilarity, hlev]
    norm_num
  refine (claim_C6_fuzzy_windows "abab" cexWordsFuzzy ⟨2, 1, 1⟩ (by decide)).mpr
    ⟨1, 2, le_refl 1, by decide, by decide, ?_, ?_⟩
  · rw [hsim]
  · rw [hsim]
    norm_num

lemma flatMap_congr_fn {α β : Type} (l : List α) (f g : α → List β)
    (h : ∀ a ∈ l, f a = g a) : l.flatMap f = l.flatMap g := by
  induction l with
  | nil => rfl
  | cons x xs ih =>
    rw [List.flatMap_cons, List.flatMap_cons, h x (List.mem_cons_self x xs),
      ih (fun a ha => h a (List.mem_cons_of_mem x ha))]

lemma filterMap_congr_fn {α β : Type} (l : List α) (f g : α → Option β)
    (h : ∀ a ∈ l, f a = g a) : l.filterMap f = l.filterMap g := by
  induction l with
  | nil => rfl
  | cons x xs ih =>
    rw [List.filterMap_cons, List.filterMap_cons, h x (List.mem_cons_self x xs),
      ih (fun a ha => h a (List.mem_cons_of_mem x ha))]

/-- The similarity threshold test at 0.85, reduced to natural numbers:
`0.85 ≤ 1 - d/m` exactly when `20 d ≤ 3 m`. -/
lemma specSimilarity_threshold_iff (q c : String)
    (h : 0 < max q.length c.length) :
    ((17 : ℚ)/20 ≤ specSimilarity q c) ↔
      20 * levenshtein q.toList c.toList ≤ 3 * max q.length c.length := by
  rw [specSimilarity, le_sub_comm, show (1 : ℚ) - 17/20 = 3/20 by norm_num]
  rw [show (max (q.length : ℚ) (c.length : ℚ)) = ((max q.length c.length : Nat) : ℚ) from
    (Nat.cast_max q.length c.length).symm]
  rw [div_le_div_iff₀ (by exact_mod_cast h) (by norm_num : (0 : ℚ) < 20)]
  rw [show ((levenshtein q.toList c.toList : ℚ)) * 20 =
      ((20 * levenshtein q.toList c.toList : Nat) : ℚ) by push_cast; ring]
  rw [show (3 : ℚ) * ((max q.length c.length : Nat) : ℚ) =
      ((3 * max q.length c.length : Nat) : ℚ) by push_cast; ring]
  exact Nat.cast_le

/-- Evaluation bridge for the fuzzy candidate enumeration at threshold 0.85:
the rational threshold guard replaced by its natural-number equivalent, so
that concrete runs reduce in the kernel. -/
def fuzzyCandidatesByNat (piiText : String) (words : List WordInfo) : List FuzzyMatch :=
  (List.range' 1 (min 5 words.length)).flatMap (fun span =>
    (List.range (words.length - span + 1)).filterMap (fun i =>
      if (windowCandidate words i span).length > 0 then
        if 20 * levenshtein (lowerNorm piiText).toList (windowCandidate words i span).toList ≤
            3 * max (lowerNorm piiText).length (windowCandidate words i span).length then
          some ⟨i, specSimilarity (lowerNorm piiText) (windowCandidate words i span), span⟩
        else none
      else none))

lemma fuzzyCandidates_threshold_nat (p : String) (ws : List WordInfo) :
    fuzzyCandidates p ws ((17 : ℚ)/20) = fuzzyCandidatesByNat p ws := by
  rw [fuzzyCandidates, fuzzyCandidatesByNat]
  refine flatMap_congr_fn _ _ _ ?_
  intro span _
  refine filterMap_congr_fn _ _ _ ?_
  intro i _
  by_cases hc : (windowCandidate ws i span).length > 0
  · rw [if_pos hc, if_pos hc]
    have hmax : 0 < max (lowerNorm p).length (windowCandidate ws i span).length :=
      lt_of_lt_of_le hc (le_max_right _ _)
    rw [if_congr (specSimilarity_threshold_iff (lowerNorm p) (windowCandidate ws i span) hmax)
      rfl rfl]
  · rw [if_neg hc, if_neg hc]

/-- Claim C3 fails as stated: on the phrase `abab` over the words
`x y abab ab ab ab`, three candidates of similarity 1 are kept, at starts
2 (span 1), 3 (span 2) and 4 (span 2). The code accepts only the start-2
candidate: the start-3 candidate is suppressed by it, and the start-4
candidate is then suppressed by the already-suppressed start-3 candidate,
although its distance from the single accepted candidate (2) is not below
`max(1, 2)` and no position is claimed. Under the claim the start-4
candidate would be accepted. -/
theorem claim_C3_counterexample :
    fuzzyMatchPII "abab" cexWordsFuzzy ((17 : ℚ)/20) = [⟨2, 1, 1⟩] ∧
    (⟨4, 1, 2⟩ : FuzzyMatch) ∈ fuzzyCandidates "abab" cexWordsFuzzy ((17 : ℚ)/20) ∧
    (∀ a ∈ fuzzyMatchPII "abab" cexWordsFuzzy ((17 : ℚ)/20),
      ¬ (Nat.dist a.position 4 < max a.matchedWords 2)) ∧
    (⟨4, 1, 2⟩ : FuzzyMatch) ∉ fuzzyMatchPII "abab" cexWordsFuzzy ((17 : ℚ)/20) := by
  have e1 : specSimilarity (lowerNorm "abab") (windowCandidate cexWordsFuzzy 2 1) = 1 := by
    have hl : levenshtein (lowerNorm "abab").toList
        (windowCandidate cexWordsFuzzy 2 1).toList = 0 := by decide
    have hq : (lowerNorm "abab").length = 4 := by decide
    have hc : (windowCandidate cexWordsFuzzy 2 1).length = 4 := by decide
    rw [specSimilarity, hl, hq, hc]
    norm_num
  have e2 : specSimilarity (lowerNorm "abab") (windowCandidate cexWordsFuzzy 3 2) = 1 := by
    have hl : levenshtein (lowerNorm "abab").toList
        (windowCandidate cexWordsFuzzy 3 2).toList = 0 := by decide
    have hq : (lowerNorm "abab").length = 4 := by decide
    have hc : (windowCandidate cexWordsFuzzy 3 2).length = 4 := by decide
    rw [specSimilarity, hl, hq, hc]
    norm_num
  have e3 : specSimilarity (lowerNorm "abab") (windowCandidate cexWordsFuzzy 4 2) = 1 := by
    have hl : levenshtein (lowerNorm "abab").toList
        (windowCandidate cexWordsFuzzy 4 2).toList = 0 := by decide
    have hq : (lowerNorm "abab").length = 4 := by decide
    have hc : (windowCandidate cexWordsFuzzy 4 2).length = 4 := by decide
    rw [specSimilarity, hl, hq, hc]
    norm_num
  have hcand : fuzzyCandidates "abab" cexWordsFuzzy ((17 : ℚ)/20) =
      [⟨2, 1, 1⟩, ⟨3, 1, 2⟩, ⟨4, 1, 2⟩] := by
    rw [fuzzyCandidates_threshold_nat]
    have h1 : fuzzyCandidatesByNat "abab" cexWordsFuzzy =
        [⟨2, specSimilarity (lowerNorm "abab") (windowCandidate cexWordsFuzzy 2 1), 1⟩,
         ⟨3, specSimilarity (lowerNorm "abab") (windowCandidate cexWordsFuzzy 3 2), 2⟩,
         ⟨4, specSimilarity (lowerNorm "abab") (windowCandidate cexWordsFuzzy 4 2), 2⟩] := rfl
    rw [h1, e1, e2, e3]
  have hout : fuzzyMatchPII "abab" cexWordsFuzzy ((17 : ℚ)/20) = [⟨2, 1, 1⟩] := by
    rw [fuzzyMatchPII, hcand]
    decide
  refine ⟨hout, ?_, ?_, ?_⟩
  · rw [hcand]
    decide
  · rw [hout]
    decide
  · rw [hout]
    decide

/-- Claim C3 (amended): after sorting the kept candidates by descending
similarity, a candidate is accepted exactly when every candidate occurring
earlier in the sorted order — whether that earlier candidate was itself
accepted or suppressed — has its window start at distance at least the
maximum of the two window lengths; the claimed-position test on the window
start is applied separately when records are emitted. -/
theorem claim_C3_amended (p : String) (ws : List WordInfo) (t : ℚ) (m : FuzzyMatch) :
    m ∈ fuzzyMatchPII p ws t ↔
      ∃ i, ∃ h : i < (sortFuzzyDesc (fuzzyCandidates p ws t)).length,
        (sortFuzzyDesc (fuzzyCandidates p ws t)).get ⟨i, h⟩ = m ∧
        ∀ prev ∈ (sortFuzzyDesc (fuzzyCandidates p ws t)).take i,
          ¬ (Nat.dist prev.position m.position < max prev.matchedWords m.matchedWords) := by
  rw [fuzzyMatchPII, nmsGo_mem _ [] m]
  refine exists_congr (fun i => exists_congr (fun h => and_congr_right (fun _ => ?_)))
  constructor
  · intro hall prev hprev
    have hb := hall prev (by simpa using hprev)
    simpa [fuzzyOverlaps] using hb
  · intro hall prev hprev
    have hb := hall prev (by simpa using hprev)
    simpa [fuzzyOverlaps] using hb

lemma createPiiMatch_some_fields (ws : List WordInfo) (idv : Nat) (pii : Pii)
    (conf : ℚ) (mt : MatchType) (pos : List Nat) (r : PiiMatch)
    (h : createPiiMatch ws idv pii conf mt pos = some r) :
    r.id = idv ∧ r.text = pii.text ∧ r.redacted = true := by
  have he := createPiiMatch_eq_some ws idv pii conf mt pos r h
  rw [he]
  exact ⟨rfl, rfl, rfl⟩

/-- The id invariant threaded through the pipeline: every accumulated record
has an id below the counter, and ids are strictly increasing along the list. -/
def IdOk (data : List PiiMatch) (ctr : Nat) : Prop :=
  (∀ r ∈ data, r.id < ctr) ∧ data.Pairwise (fun a b => a.id < b.id)

lemma idOk_bump {data : List PiiMatch} {ctr : Nat} (h : IdOk data ctr) :
    IdOk data (ctr + 1) :=
  ⟨fun r hr => Nat.lt_succ_of_lt (h.1 r hr), h.2⟩

lemma idOk_append {data : List PiiMatch} {ctr : Nat} {r : PiiMatch}
    (h : IdOk data ctr) (hr : r.id = ctr) : IdOk (data ++ [r]) (ctr + 1) := by
  constructor
  · intro x hx
    rcases List.mem_append.mp hx with hx | hx
    · exact Nat.lt_succ_of_lt (h.1 x hx)
    · rw [List.mem_singleton.mp hx, hr]
      exact Nat.lt_succ_self ctr
  · rw [List.pairwise_append]
    refine ⟨h.2, List.pairwise_singleton _ _, ?_⟩
    intro a ha b hb
    rw [List.mem_singleton.mp hb, hr]
    exact h.1 a ha

lemma exactStepAt_idOk (pii : Pii) (wm : List WordInfo) (v : List String)
    (st : PhraseState) (i : Nat) (h : IdOk st.piiData st.piiIdCounter) :
    IdOk (exactStepAt pii wm v st i).piiData (exactStepAt pii wm v st i).piiIdCounter := by
  rw [exactStepAt]
  by_cases hfp : i ∈ st.foundPositions
  · rw [if_pos hfp]
    exact h
  · rw [if_neg hfp]
    by_cases hsl : ((wm.drop i).take v.length).map WordInfo.text = v
    · rw [if_pos hsl]
      cases hm : createPiiMatch ((wm.drop i).take v.length) st.piiIdCounter pii 1
          (MatchType.exact v) (List.range' i v.length) with
      | none =>
        simp only [hm]
        exact idOk_bump h
      | some r =>
        simp only [hm]
        exact idOk_append h (createPiiMatch_some_fields _ _ _ _ _ _ r hm).1
    · rw [if_neg hsl]
      exact h

lemma exactStep_idOk (pii : Pii) (wm : List WordInfo) (st : PhraseState)
    (v : List String) (h : IdOk st.piiData st.piiIdCounter) :
    IdOk (exactStep pii wm st v).piiData (exactStep pii wm st v).piiIdCounter := by
  rw [exactStep]
  by_cases hl : v.length > wm.length
  · rw [if_pos hl]
    exact h
  · rw [if_neg hl]
    exact foldl_preserve (fun s => IdOk s.piiData s.piiIdCounter) _
      (fun s a hs => exactStepAt_idOk pii wm v s a hs) _ st h

lemma flexStep_idOk (pii : Pii) (st : PhraseState) (fm : FlexMatch)
    (h : IdOk st.piiData st.piiIdCounter) :
    IdOk (flexStep pii st fm).piiData (flexStep pii st fm).piiIdCounter := by
  rw [flexStep]
  cases hm : createPiiMatch fm.words st.piiIdCounter pii fm.confidence
      (MatchType.flexible fm.matchedWords.length) fm.positions with
  | none =>
    simp only [hm]
    exact idOk_bump h
  | some r =>
    simp only [hm]
    exact idOk_append h (createPiiMatch_some_fields _ _ _ _ _ _ r hm).1

lemma fuzzyStep_idOk (pii : Pii) (wm : List WordInfo) (st : PhraseState)
    (fz : FuzzyMatch) (h : IdOk st.piiData st.piiIdCounter) :
    IdOk (fuzzyStep pii wm st fz).piiData (fuzzyStep pii wm st fz).piiIdCounter := by
  rw [fuzzyStep]
  by_cases hfp : fz.position ∈ st.foundPositions
  · rw [if_pos hfp]
    exact h
  · rw [if_neg hfp]
    cases hm : createPiiMatch ((wm.drop fz.position).take fz.matchedWords) st.piiIdCounter
        pii fz.confidence (MatchType.fuzzy fz.confidence)
        (List.range' fz.position fz.matchedWords) with
    | none =>
      simp only [hm]
      exact idOk_bump h
    | some r =>
      simp only [hm]
      exact idOk_append h (createPiiMatch_some_fields _ _ _ _ _ _ r hm).1

lemma processPhrase_idOk (wm : List WordInfo) (st0 : PState) (pii : Pii)
    (h : IdOk st0.piiData st0.piiIdCounter) :
    IdOk (processPhrase wm st0 pii).piiData (processPhrase wm st0 pii).piiIdCounter := by
  rw [processPhrase]
  have h1 : IdOk (⟨st0.piiData, st0.piiIdCounter, [], 0⟩ : PhraseState).piiData
      (⟨st0.piiData, st0.piiIdCounter, [], 0⟩ : PhraseState).piiIdCounter := h
  have h2 := foldl_preserve (fun s : PhraseState => IdOk s.piiData s.piiIdCounter) _
    (fun s a hs => exactStep_idOk pii wm s a hs) (createSearchVariants pii.text) _ h1
  set st2 := (createSearchVariants pii.text).foldl (exactStep pii wm)
    ⟨st0.piiData, st0.piiIdCounter, [], 0⟩ with hst2
  have h3 : ∀ st3 : PhraseState, IdOk st3.piiData st3.piiIdCounter →
      IdOk ((fuzzyMatchPII pii.text wm ((17 : ℚ)/20)).foldl (fuzzyStep pii wm) st3).piiData
        ((fuzzyMatchPII pii.text wm ((17 : ℚ)/20)).foldl (fuzzyStep pii wm) st3).piiIdCounter :=
    fun st3 hs => foldl_preserve (fun s : PhraseState => IdOk s.piiData s.piiIdCounter) _
      (fun s a hss => fuzzyStep_idOk pii wm s a hss) _ st3 hs
  by_cases hc : ((createSearchVariants pii.text).any fun v => v.length ≥ 4) = true ∧
      st2.instanceCount = 0
  · rw [if_pos hc]
    have h4 := foldl_preserve (fun s : PhraseState => IdOk s.piiData s.piiIdCounter) _
      (fun s a hs => flexStep_idOk pii s a hs)
      (findFlexibleMatches (createSearchVariants pii.text) wm st2.foundPositions) _ h2
    by_cases hf : (((findFlexibleMatches (createSearchVariants pii.text) wm
        st2.foundPositions).foldl (flexStep pii) st2).instanceCount) < 2
    · rw [if_pos hf]
      exact h3 _ h4
    · rw [if_neg hf]
      exact h4
  · rw [if_neg hc]
    by_cases hf : st2.instanceCount < 2
    · rw [if_pos hf]
      exact h3 _ h2
    · rw [if_neg hf]
      exact h2

/-- Claim C8: across one whole call, the emitted records carry strictly
increasing ids in emission order; in particular no two records share an id. -/
theorem claim_C8_ids (piiList : List Pii) (words : List WordInfo) :
    (mapPiiToBbox piiList words).Pairwise (fun a b => a.id < b.id) := by
  rw [mapPiiToBbox]
  have h0 : IdOk (⟨[], 0⟩ : PState).piiData (⟨[], 0⟩ : PState).piiIdCounter := by
    constructor
    · intro r hr
      simp at hr
    · exact List.Pairwise.nil
  exact (foldl_preserve (fun s : PState => IdOk s.piiData s.piiIdCounter) _
    (fun s a hs => processPhrase_idOk (wordMapOf words) s a hs) piiList _ h0).2

/-- Generic step lemma for accumulators: along a fold, every record of the
result was already present or satisfies the per-item property. -/
lemma foldl_mem_or {S α : Type} (data : S → List PiiMatch) (f : S → α → S)
    (Q : α → PiiMatch → Prop)
    (h : ∀ s a r, r ∈ data (f s a) → r ∈ data s ∨ Q a r) :
    ∀ (l : List α) (s : S) (r : PiiMatch),
      r ∈ data (l.foldl f s) → r ∈ data s ∨ ∃ a ∈ l, Q a r := by
  intro l
  induction l with
  | nil =>
    intro s r hr
    exact Or.inl hr
  | cons x xs ih =>
    intro s r hr
    rcases ih (f s x) r hr with h1 | ⟨a, ha, hq⟩
    · rcases h s x r h1 with h2 | h2
      · exact Or.inl h2
      · exact Or.inr ⟨x, List.mem_cons_self x xs, h2⟩
    · exact Or.inr ⟨a, List.mem_cons_of_mem x ha, hq⟩

lemma exactStepAt_mem (pii : Pii) (wm : List WordInfo) (v : List String)
    (st : PhraseState) (i : Nat) (r : PiiMatch)
    (hr : r ∈ (exactStepAt pii wm v st i).piiData) :
    r ∈ st.piiData ∨ (r.text = pii.text ∧ r.redacted = true) := by
  rw [exactStepAt] at hr
  by_cases hfp : i ∈ st.foundPositions
  · rw [if_pos hfp] at hr
    exact Or.inl hr
  · rw [if_neg hfp] at hr
    by_cases hsl : ((wm.drop i).take v.length).map WordInfo.text = v
    · rw [if_pos hsl] at hr
      cases hm : createPiiMatch ((wm.drop i).take v.length) st.piiIdCounter pii 1
          (MatchType.exact v) (List.range' i v.length) with
      | none =>
        simp only [hm] at hr
        exact Or.inl hr
      | some x =>
        simp only [hm] at hr
        rcases List.mem_append.mp hr with h1 | h1
        · exact Or.inl h1
        · rw [List.mem_singleton.mp h1]
          exact Or.inr ⟨(createPiiMatch_some_fields _ _ _ _ _ _ x hm).2.1,
            (createPiiMatch_some_fields _ _ _ _ _ _ x hm).2.2⟩
    · rw [if_neg hsl] at hr
      exact Or.inl hr

lemma flexStep_mem (pii : Pii) (st : PhraseState) (fm : FlexMatch) (r : PiiMatch)
    (hr : r ∈ (flexStep pii st fm).piiData) :
    r ∈ st.piiData ∨ (r.text = pii.text ∧ r.redacted = true) := by
  rw [flexStep] at hr
  cases hm : createPiiMatch fm.words st.piiIdCounter pii fm.confidence
      (MatchType.flexible fm.matchedWords.length) fm.positions with
  | none =>
    simp only [hm] at hr
    exact Or.inl hr
  | some x =>
    simp only [hm] at hr
    rcases List.mem_append.mp hr with h1 | h1
    · exact Or.inl h1
    · rw [List.mem_singleton.mp h1]
      exact Or.inr ⟨(createPiiMatch_some_fields _ _ _ _ _ _ x hm).2.1,
        (createPiiMatch_some_fields _ _ _ _ _ _ x hm).2.2⟩

lemma fuzzyStep_mem (pii : Pii) (wm : List WordInfo) (st : PhraseState)
    (fz : FuzzyMatch) (r : PiiMatch)
    (hr : r ∈ (fuzzyStep pii wm st fz).piiData) :
    r ∈ st.piiData ∨ (r.text = pii.text ∧ r.redacted = true) := by
  rw [fuzzyStep] at hr
  by_cases hfp : fz.position ∈ st.foundPositions
  · rw [if_pos hfp] at hr
    exact Or.inl hr
  · rw [if_neg hfp] at hr
    cases hm : createPiiMatch ((wm.drop fz.position).take fz.matchedWords) st.piiIdCounter
        pii fz.confidence (MatchType.fuzzy fz.confidence)
        (List.range' fz.position fz.matchedWords) with
    | none =>
      simp only [hm] at hr
      exact Or.inl hr
    | some x =>
      simp only [hm] at hr
      rcases List.mem_append.mp hr with h1 | h1
      · exact Or.inl h1
      · rw [List.mem_singleton.mp h1]
        exact Or.inr ⟨(createPiiMatch_some_fields _ _ _ _ _ _ x hm).2.1,
          (createPiiMatch_some_fields _ _ _ _ _ _ x hm).2.2⟩

lemma processPhrase_mem (wm : List WordInfo) (st0 : PState) (pii : Pii) (r : PiiMatch)
    (hr : r ∈ (processPhrase wm st0 pii).piiData) :
    r ∈ st0.piiData ∨ (r.text = pii.text ∧ r.redacted = true) := by
  simp only [processPhrase] at hr
  set Q : PiiMatch → Prop := fun x => x.text = pii.text ∧ x.redacted = true with hQ
  have hexact : ∀ (s : PhraseState) (v : List String) (x : PiiMatch),
      x ∈ (exactStep pii wm s v).piiData → x ∈ s.piiData ∨ Q x := by
    intro s v x hx
    rw [exactStep] at hx
    by_cases hl : v.length > wm.length
    · rw [if_pos hl] at hx
      exact Or.inl hx
    · rw [if_neg hl] at hx
      have := foldl_mem_or (fun s : PhraseState => s.piiData)
        (exactStepAt pii wm v) (fun _ y => Q y)
        (fun s a y hy => exactStepAt_mem pii wm v s a y hy) _ s x hx
      rcases this with h1 | ⟨_, _, h1⟩
      · exact Or.inl h1
      · exact Or.inr h1
  -- peel the fuzzy phase
  have hfuzzy : ∀ (s : PhraseState) (x : PiiMatch),
      x ∈ ((fuzzyMatchPII pii.text wm ((17 : ℚ)/20)).foldl (fuzzyStep pii wm) s).piiData →
      x ∈ s.piiData ∨ Q x := by
    intro s x hx
    have := foldl_mem_or (fun s : PhraseState => s.piiData)
      (fuzzyStep pii wm) (fun _ y => Q y)
      (fun s a y hy => fuzzyStep_mem pii wm s a y hy) _ s x hx
    rcases this with h1 | ⟨_, _, h1⟩
    · exact Or.inl h1
    · exact Or.inr h1
  have hflex : ∀ (s : PhraseState) (x : PiiMatch)
      (l : List FlexMatch), x ∈ (l.foldl (flexStep pii) s).piiData →
      x ∈ s.piiData ∨ Q x := by
    intro s x l hx
    have := foldl_mem_or (fun s : PhraseState => s.piiData)
      (flexStep pii) (fun _ y => Q y)
      (fun s a y hy => flexStep_mem pii s a y hy) l s x hx
    rcases this with h1 | ⟨_, _, h1⟩
    · exact Or.inl h1
    · exact Or.inr h1
  have hexactall : ∀ (s : PhraseState) (x : PiiMatch),
      x ∈ ((createSearchVariants pii.text).foldl (exactStep pii wm) s).piiData →
      x ∈ s.piiData ∨ Q x := by
    intro s x hx
    have := foldl_mem_or (fun s : PhraseState => s.piiData)
      (exactStep pii wm) (fun _ y => Q y)
      (fun s a y hy => hexact s a y hy) _ s x hx
    rcases this with h1 | ⟨_, _, h1⟩
    · exact Or.inl h1
    · exact Or.inr h1
  -- combine the phases over the two conditionals
  have hcollect : ∀ (s : PhraseState), s.piiData = st0.piiData →
      ∀ x ∈ ((createSearchVariants pii.text).foldl (exactStep pii wm) s).piiData,
      x ∈ st0.piiData ∨ Q x := by
    intro s hs x hx
    rcases hexactall s x hx with h1 | h1
    · rw [hs] at h1
      exact Or.inl h1
    · exact Or.inr h1
  set st1 : PhraseState := ⟨st0.piiData, st0.piiIdCounter, [], 0⟩ with hst1
  set st2 := (createSearchVariants pii.text).foldl (exactStep pii wm) st1 with hst2
  have hst2mem : ∀ x ∈ st2.piiData, x ∈ st0.piiData ∨ Q x :=
    fun x hx => hcollect st1 rfl x hx
  by_cases hc : ((createSearchVariants pii.text).any fun v => v.length ≥ 4) = true ∧
      st2.instanceCount = 0
  · rw [if_pos hc] at hr
    set st3 := (findFlexibleMatches (createSearchVariants pii.text) wm
      st2.foundPositions).foldl (flexStep pii) st2 with hst3
    have hst3mem : ∀ x ∈ st3.piiData, x ∈ st0.piiData ∨ Q x := by
      intro x hx
      rcases hflex st2 x _ hx with h1 | h1
      · exact hst2mem x h1
      · exact Or.inr h1
    by_cases hf : st3.instanceCount < 2
    · rw [if_pos hf] at hr
      rcases hfuzzy st3 r hr with h1 | h1
      · exact hst3mem r h1
      · exact Or.inr h1
    · rw [if_neg hf] at hr
      exact hst3mem r hr
  · rw [if_neg hc] at hr
    by_cases hf : st2.instanceCount < 2
    · rw [if_pos hf] at hr
      rcases hfuzzy st2 r hr with h1 | h1
      · exact hst2mem r h1
      · exact Or.inr h1
    · rw [if_neg hf] at hr
      exact hst2mem r hr

/-- Claim C10: every emitted record carries the raw text of the phrase being
searched for, and its redacted flag is true on emission. -/
theorem claim_C10_text_redacted (piiList : List Pii) (words : List WordInfo)
    (r : PiiMatch) (hr : r ∈ mapPiiToBbox piiList words) :
    ∃ p ∈ piiList, r.text = p.text ∧ r.redacted = true := by
  rw [mapPiiToBbox] at hr
  have := foldl_mem_or (fun s : PState => s.piiData) (processPhrase (wordMapOf words))
    (fun p x => x.text = p.text ∧ x.redacted = true)
    (fun s p x hx => processPhrase_mem (wordMapOf words) s p x hx) piiList ⟨[], 0⟩ r hr
  rcases this with h1 | h1
  · simp at h1
  · exact h1

/-- Concrete input for the C10 witness: a phrase matched exactly twice, so
that the fuzzy phase is skipped. -/
def wordsC10 : List WordInfo :=
  [⟨"AB", some ⟨[⟨some 0, some 0⟩]⟩⟩, ⟨"AB", some ⟨[⟨some 1, some 1⟩]⟩⟩]

def recC10 : PiiMatch :=
  ⟨0, "L", "AB", ((0 : ℚ), (0 : ℚ), (0 : ℚ) - 0, (0 : ℚ) - 0),
    [⟨some 0, some 0⟩], true, 1, MatchType.exact ["AB"], [0]⟩

def recC10b : PiiMatch :=
  ⟨1, "L", "AB", ((1 : ℚ), (1 : ℚ), (1 : ℚ) - 1, (1 : ℚ) - 1),
    [⟨some 1, some 1⟩], true, 1, MatchType.exact ["AB"], [1]⟩

/-- Witness for C10 at a concrete emitted record. -/
theorem claim_C10_text_redacted_witness :
    ∃ p ∈ [(⟨"AB", "L"⟩ : Pii)], recC10.text = p.text ∧ recC10.redacted = true :=
  claim_C10_text_redacted [⟨"AB", "L"⟩] wordsC10 recC10 (by
    have h : mapPiiToBbox [⟨"AB", "L"⟩] wordsC10 = [recC10, recC10b] := rfl
    rw [h]
    exact List.mem_cons_self _ _)

lemma mem_foldl_cons : ∀ (l init : List Nat) (j : Nat),
    (j ∈ l ∨ j ∈ init) → j ∈ l.foldl (fun fp k => k :: fp) init := by
  intro l
  induction l with
  | nil =>
    intro init j h
    rcases h with h | h
    · exact absurd h (List.not_mem_nil j)
    · exact h
  | cons x xs ih =>
    intro init j h
    rw [List.foldl_cons]
    apply ih
    rcases h with h | h
    · rcases List.mem_cons.mp h with rfl | h
      · exact Or.inr (List.mem_cons_self j init)
      · exact Or.inl h
    · exact Or.inr (List.mem_cons_of_mem x h)

/-- Claim C9: on a window equality at an unclaimed start, the exact matcher
claims every window position even when the candidate is dropped for lacking
valid vertices (and then emits nothing), while a dropped flexible or fuzzy
candidate claims no position (and emits nothing). -/
theorem claim_C9_claiming :
    (∀ (pii : Pii) (wm : List WordInfo) (v : List String) (st : PhraseState) (i : Nat),
      i ∉ st.foundPositions →
      ((wm.drop i).take v.length).map WordInfo.text = v →
      ((∀ j ∈ List.range' i v.length, j ∈ (exactStepAt pii wm v st i).foundPositions) ∧
       (createPiiMatch ((wm.drop i).take v.length) st.piiIdCounter pii 1
          (MatchType.exact v) (List.range' i v.length) = none →
        (exactStepAt pii wm v st i).piiData = st.piiData))) ∧
    (∀ (pii : Pii) (st : PhraseState) (fm : FlexMatch),
      createPiiMatch fm.words st.piiIdCounter pii fm.confidence
        (MatchType.flexible fm.matchedWords.length) fm.positions = none →
      (flexStep pii st fm).foundPositions = st.foundPositions ∧
      (flexStep pii st fm).piiData = st.piiData) ∧
    (∀ (pii : Pii) (wm : List WordInfo) (st : PhraseState) (fz : FuzzyMatch),
      createPiiMatch ((wm.drop fz.position).take fz.matchedWords) st.piiIdCounter pii
        fz.confidence (MatchType.fuzzy fz.confidence)
        (List.range' fz.position fz.matchedWords) = none →
      (fuzzyStep pii wm st fz).foundPositions = st.foundPositions ∧
      (fuzzyStep pii wm st fz).piiData = st.piiData) := by
  refine ⟨?_, ?_, ?_⟩
  · intro pii wm v st i hfp hsl
    constructor
    · intro j hj
      rw [exactStepAt, if_neg hfp, if_pos hsl]
      exact mem_foldl_cons _ _ j (Or.inl hj)
    · intro hm
      rw [exactStepAt, if_neg hfp, if_pos hsl]
      simp only [hm]
  · intro pii st fm hm
    rw [flexStep]
    simp [hm]
  · intro pii wm st fz hm
    rw [fuzzyStep]
    by_cases hfp : fz.position ∈ st.foundPositions
    · rw [if_pos hfp]
      exact ⟨rfl, rfl⟩
    · rw [if_neg hfp]
      simp [hm]

/-- Concrete input for the C9 witness: a word whose only vertex lacks a
numeric x, so its exact candidate is dropped yet position 0 is claimed. -/
def wordDropped : List WordInfo := [⟨"A", some ⟨[⟨none, some 0⟩]⟩⟩]

def stC9 : PhraseState := ⟨[], 5, [], 0⟩

/-- Witness for C9: the dropped exact candidate still claims its position
and emits no record. -/
theorem claim_C9_claiming_witness :
    0 ∈ (exactStepAt ⟨"A", "L"⟩ wordDropped ["A"] stC9 0).foundPositions ∧
    (exactStepAt ⟨"A", "L"⟩ wordDropped ["A"] stC9 0).piiData = [] := by
  have h := claim_C9_claiming.1 ⟨"A", "L"⟩ wordDropped ["A"] stC9 0 (by decide) (by decide)
  exact ⟨h.1 0 (by decide), h.2 (by decide)⟩

example : levenshtein "kitten".toList "sitting".toList = 3 := by decide
example : levenshtein "abab".toList "yabab".toList = 1 := by decide
example : levenshtein "".toList "abc".toList = 3 := by decide
example : spacedSplit "AF12HPV" = ["AF", "12", "HPV"] := by decide
example : createSearchVariants "A1" = [["A1"], ["A", "1"]] := by decide

end RedactThat
